import Mathlib

/-!
Verification of the open62541 Event Loop core against its specification.

The repository ships the public header `open62541/plugin/eventloop.h` and the
test suite `check_eventloop_tcp.c`.  The POSIX implementation behind the header
is not part of the sources, so the operational definitions below are modelled
from the specification document (each such definition says so in its
doc comment).  The theorems then settle the specified properties against this
model.
-/

set_option maxHeartbeats 1000000

/-- Semantic subset of `UA_StatusCode` used at the EventLoop boundary
(`Good`, `BadInternalError`, `BadInvalidArgument`, `BadNotFound`,
`BadAlreadyExists`, `BadConnectionClosed`, `BadOutOfMemory`,
`BadCommunicationError`). -/
inductive UA_StatusCode where
  | good
  | badInternalError
  | badInvalidArgument
  | badNotFound
  | badAlreadyExists
  | badConnectionClosed
  | badOutOfMemory
  | badCommunicationError
deriving DecidableEq

/-- Modelled from the spec: the EventLoop monotonic time domain.  Times are
rational numbers of milliseconds (the C code uses `UA_DateTime`, a signed
64-bit tick count; intervals are `UA_Double` milliseconds, hence rationals). -/
abbrev UA_DateTime := ℚ

/-- Modelled from the spec: the maximum representable `UA_DateTime`
(`INT64_MAX` ticks in the C code), returned by `nextCyclicTime` when no
timer entry is registered. -/
def UA_DateTime_max : UA_DateTime := ((9223372036854775807 : ℤ) : ℚ)

/-- Timer policies, as in `UA_TimerPolicy`. -/
inductive UA_TimerPolicy where
  | currentTime
  | baseTime
deriving DecidableEq

/-- Modelled from the spec: one cyclic or one-shot timer entry of the timer
wheel (id, next-fire time, interval in ms with 0 meaning one-shot, base-time
anchor and policy). -/
structure UA_TimerEntry where
  id : Nat
  nextTime : UA_DateTime
  interval : ℚ
  baseTime : UA_DateTime
  policy : UA_TimerPolicy
deriving DecidableEq

/-- Modelled from the spec: the timer wheel.  `idCounter` is the monotonic
id counter skipping zero; `issued` is the (ghost) list of all callback ids the
wheel has ever issued. -/
structure UA_Timer where
  entries : List UA_TimerEntry
  idCounter : Nat
  issued : List Nat
deriving DecidableEq

/-- Well-formedness of the timer wheel: every issued id is nonzero and at most
the current counter value. -/
def timerWF (t : UA_Timer) : Prop :=
  ∀ i ∈ t.issued, 0 < i ∧ i ≤ t.idCounter

instance (t : UA_Timer) : Decidable (timerWF t) := by
  unfold timerWF; infer_instance

/-- Modelled from the spec: re-arming a BaseTime cyclic entry that fired at
`now` targets `baseTime + ⌈(now − baseTime)/interval⌉ · interval`, skipping
missed slots to preserve phase. -/
def nextTimeBaseTime (base : UA_DateTime) (interval : ℚ) (now : UA_DateTime) :
    UA_DateTime :=
  base + interval * ((⌈(now - base) / interval⌉ : ℤ) : ℚ)

/-- Modelled from the spec: re-arming a cyclic entry after it fired at `now`.
CurrentTime policy re-arms at `now + interval`; BaseTime preserves the phase
of the base-time anchor. -/
def rescheduleEntry (e : UA_TimerEntry) (now : UA_DateTime) : UA_TimerEntry :=
  match e.policy with
  | .currentTime => { e with nextTime := now + e.interval }
  | .baseTime => { e with nextTime := nextTimeBaseTime e.baseTime e.interval now }

/-- Modelled from the spec: the next-fire time assigned to a freshly inserted
cyclic entry.  It is strictly in the future; with a BaseTime anchor the phase
of the anchor is respected. -/
def calculateFirstTime (now : UA_DateTime) (interval : ℚ)
    (baseTime : Option UA_DateTime) (timerPolicy : UA_TimerPolicy) :
    UA_DateTime :=
  match timerPolicy, baseTime with
  | .baseTime, some b =>
      let n := nextTimeBaseTime b interval now
      if n ≤ now then n + interval else n
  | _, _ => now + interval

/-- Modelled from the spec: `addCyclicCallback` of `UA_EventLoop`.  Rejects a
non-positive interval with `BadInvalidArgument`; otherwise registers an entry
under a fresh nonzero id drawn from the monotonic counter and reports that id
(the C code writes it through the `callbackId` out-pointer when non-NULL). -/
def addCyclicCallback (t : UA_Timer) (now : UA_DateTime) (interval_ms : ℚ)
    (baseTime : Option UA_DateTime) (timerPolicy : UA_TimerPolicy) :
    UA_StatusCode × UA_Timer × Option Nat :=
  if interval_ms ≤ 0 then (.badInvalidArgument, t, none)
  else
    let id := t.idCounter + 1
    (.good,
     { entries := t.entries ++
         [{ id := id
            nextTime := calculateFirstTime now interval_ms baseTime timerPolicy
            interval := interval_ms
            baseTime := baseTime.getD now
            policy := timerPolicy }]
       idCounter := id
       issued := id :: t.issued },
     some id)

/-- Modelled from the spec: `nextCyclicTime` of `UA_EventLoop`: the minimum
next-fire time over all registered entries, or the maximum representable
`UA_DateTime` when no entry is registered. -/
def nextCyclicTime (t : UA_Timer) : UA_DateTime :=
  match t.entries with
  | [] => UA_DateTime_max
  | e :: es => es.foldl (fun m x => min m x.nextTime) e.nextTime

/-- Modelled from the spec: firing all due timer entries at time `now`.
One-shot entries (interval 0) are removed, cyclic entries are re-armed
according to their policy; entries that are not due are kept unchanged. -/
def fireTimers (t : UA_Timer) (now : UA_DateTime) : UA_Timer :=
  { t with entries := t.entries.filterMap (fun e =>
      if e.nextTime ≤ now then
        (if e.interval ≤ 0 then none else some (rescheduleEntry e now))
      else some e) }

lemma foldl_min_le_init (l : List UA_TimerEntry) (a : UA_DateTime) :
    l.foldl (fun m x => min m x.nextTime) a ≤ a := by
  induction l generalizing a with
  | nil => simp
  | cons e es ih =>
      simp only [List.foldl_cons]
      exact le_trans (ih _) (min_le_left _ _)

lemma foldl_min_le_mem (l : List UA_TimerEntry) :
    ∀ (a : UA_DateTime) (e : UA_TimerEntry), e ∈ l →
      l.foldl (fun m x => min m x.nextTime) a ≤ e.nextTime := by
  induction l with
  | nil => intro a e he; cases he
  | cons x xs ih =>
      intro a e he
      simp only [List.foldl_cons]
      rcases List.mem_cons.mp he with h | h
      · subst h
        exact le_trans (foldl_min_le_init xs _) (min_le_right _ _)
      · exact ih _ e h

lemma foldl_min_attained (l : List UA_TimerEntry) (a : UA_DateTime) :
    l.foldl (fun m x => min m x.nextTime) a = a ∨
      ∃ e ∈ l, l.foldl (fun m x => min m x.nextTime) a = e.nextTime := by
  induction l generalizing a with
  | nil => exact Or.inl rfl
  | cons x xs ih =>
      simp only [List.foldl_cons]
      rcases ih (min a x.nextTime) with h | ⟨e, he, h⟩
      · rcases min_cases a x.nextTime with ⟨hm, _⟩ | ⟨hm, _⟩
        · exact Or.inl (h.trans hm)
        · exact Or.inr ⟨x, List.mem_cons_self _ _, h.trans hm⟩
      · exact Or.inr ⟨e, List.mem_cons_of_mem _ he, h⟩

/-- C5: `nextCyclicTime` returns the minimum next-fire time over all
registered cyclic and timed entries of the timer wheel, and the maximum
representable `UA_DateTime` when no entry is registered. -/
theorem nextCyclicTime_min (t : UA_Timer) :
    (t.entries = [] → nextCyclicTime t = UA_DateTime_max) ∧
    (∀ e ∈ t.entries, nextCyclicTime t ≤ e.nextTime) ∧
    (t.entries ≠ [] → ∃ e ∈ t.entries, nextCyclicTime t = e.nextTime) := by
  refine ⟨?_, ?_, ?_⟩
  · intro h
    simp [nextCyclicTime, h]
  · intro e he
    unfold nextCyclicTime
    match ht : t.entries with
    | [] => rw [ht] at he; cases he
    | x :: xs =>
        rw [ht] at he
        rcases List.mem_cons.mp he with h | h
        · subst h; exact foldl_min_le_init xs _
        · exact foldl_min_le_mem xs _ _ h
  · intro h
    unfold nextCyclicTime
    match ht : t.entries with
    | [] => exact absurd ht h
    | x :: xs =>
        rcases foldl_min_attained xs x.nextTime with hx | ⟨e, he, hx⟩
        · exact ⟨x, List.mem_cons_self _ _, hx⟩
        · exact ⟨e, List.mem_cons_of_mem _ he, hx⟩

/-- Witness for C5 at a concrete timer wheel with two entries. -/
theorem nextCyclicTime_min_witness :
    (⟨[⟨1, 7, 5, 0, .currentTime⟩, ⟨2, 3, 5, 0, .currentTime⟩], 2, [1, 2]⟩ :
        UA_Timer).entries ≠ [] ∧
    ∃ e ∈ (⟨[⟨1, 7, 5, 0, .currentTime⟩, ⟨2, 3, 5, 0, .currentTime⟩], 2, [1, 2]⟩ :
        UA_Timer).entries,
      nextCyclicTime ⟨[⟨1, 7, 5, 0, .currentTime⟩, ⟨2, 3, 5, 0, .currentTime⟩], 2, [1, 2]⟩ =
        e.nextTime :=
  ⟨by decide,
   (nextCyclicTime_min ⟨[⟨1, 7, 5, 0, .currentTime⟩, ⟨2, 3, 5, 0, .currentTime⟩], 2, [1, 2]⟩).2.2
     (by decide)⟩

/-- C7: `addCyclicCallback` fails with `BadInvalidArgument` and registers
nothing when `interval_ms ≤ 0`; otherwise it succeeds and reports a nonzero
callback id distinct from every id the timer wheel previously issued. -/
theorem addCyclicCallback_spec (t : UA_Timer) (now : UA_DateTime)
    (interval_ms : ℚ) (baseTime : Option UA_DateTime)
    (timerPolicy : UA_TimerPolicy) :
    (interval_ms ≤ 0 →
      addCyclicCallback t now interval_ms baseTime timerPolicy =
        (.badInvalidArgument, t, none)) ∧
    (0 < interval_ms → timerWF t →
      ∃ id, (addCyclicCallback t now interval_ms baseTime timerPolicy).1 = .good ∧
        (addCyclicCallback t now interval_ms baseTime timerPolicy).2.2 = some id ∧
        id ≠ 0 ∧ id ∉ t.issued) := by
  constructor
  · intro h
    simp [addCyclicCallback, h]
  · intro h hwf
    have hn : ¬ interval_ms ≤ 0 := not_le.mpr h
    refine ⟨t.idCounter + 1, ?_, ?_, ?_, ?_⟩
    · simp [addCyclicCallback, hn]
    · simp [addCyclicCallback, hn]
    · omega
    · intro hmem
      have := (hwf _ hmem).2
      omega

/-- Witness for C7: on a fresh timer wheel, adding a 10 ms cyclic callback
succeeds with a fresh nonzero id, and a zero interval is rejected. -/
theorem addCyclicCallback_spec_witness :
    ((0 : ℚ) < 10 ∧ timerWF ⟨[], 0, []⟩ ∧
      ∃ id, (addCyclicCallback ⟨[], 0, []⟩ 0 10 none .currentTime).1 = .good ∧
        (addCyclicCallback ⟨[], 0, []⟩ 0 10 none .currentTime).2.2 = some id ∧
        id ≠ 0 ∧ id ∉ (⟨[], 0, []⟩ : UA_Timer).issued) ∧
    ((0 : ℚ) ≤ 0 ∧ addCyclicCallback ⟨[], 0, []⟩ 0 0 none .currentTime =
        (.badInvalidArgument, ⟨[], 0, []⟩, none)) :=
  ⟨⟨by norm_num, by decide,
    (addCyclicCallback_spec ⟨[], 0, []⟩ 0 10 none .currentTime).2 (by norm_num) (by decide)⟩,
   ⟨le_refl 0,
    (addCyclicCallback_spec ⟨[], 0, []⟩ 0 0 none .currentTime).1 (le_refl 0)⟩⟩

/-- C8: after a BaseTime entry with base `b` and interval `I > 0` fires at
time `now`, its next fire time is `b + ⌈(now − b)/I⌉ · I`: a multiple of `I`
past `b`, at least `now`, and minimal among such multiples.  In particular,
with `I = 10` ms and the clock 45 ms past `b`, the next fire time is exactly
`b + 50` ms. -/
theorem baseTime_policy_next_fire (b now : UA_DateTime) (I : ℚ) (hI : 0 < I) :
    (∃ k : ℤ, nextTimeBaseTime b I now = b + (k : ℚ) * I) ∧
    now ≤ nextTimeBaseTime b I now ∧
    (∀ m : UA_DateTime, now ≤ m → (∃ k : ℤ, m = b + (k : ℚ) * I) →
      nextTimeBaseTime b I now ≤ m) ∧
    nextTimeBaseTime b 10 (b + 45) = b + 50 := by
  refine ⟨⟨⌈(now - b) / I⌉, by rw [nextTimeBaseTime]; ring⟩, ?_, ?_, ?_⟩
  · have h1 : (now - b) / I ≤ ((⌈(now - b) / I⌉ : ℤ) : ℚ) := Int.le_ceil _
    have h2 : now - b ≤ I * ((⌈(now - b) / I⌉ : ℤ) : ℚ) := by
      have := (div_le_iff₀ hI).mp h1
      linarith [this]
    unfold nextTimeBaseTime
    linarith
  · rintro m hm ⟨k, rfl⟩
    have h1 : (now - b) / I ≤ (k : ℚ) := by
      rw [div_le_iff₀ hI]
      linarith
    have h2 : (⌈(now - b) / I⌉ : ℤ) ≤ k := Int.ceil_le.mpr h1
    have h3 : ((⌈(now - b) / I⌉ : ℤ) : ℚ) ≤ (k : ℚ) := by exact_mod_cast h2
    unfold nextTimeBaseTime
    nlinarith
  · unfold nextTimeBaseTime
    have h45 : (b + 45 - b) / (10 : ℚ) = 9 / 2 := by ring
    rw [h45]
    have hceil : (⌈(9 / 2 : ℚ)⌉ : ℤ) = 5 := by
      rw [Int.ceil_eq_iff]
      norm_num
    rw [hceil]
    norm_num

/-- Witness for C8 at `b = 0`, `I = 10`, `now = 45`. -/
theorem baseTime_policy_next_fire_witness :
    (0 : ℚ) < 10 ∧ nextTimeBaseTime 0 10 (0 + 45) = 0 + 50 :=
  ⟨by norm_num, (baseTime_policy_next_fire 0 45 10 (by norm_num)).2.2.2⟩

/-- Connection lifecycle states (open62541 keeps connections as Connecting,
Established or Closing inside the manager; a closed connection is removed and
its id retired). -/
inductive ConnectionState where
  | connecting
  | established
  | closing
deriving DecidableEq

/-- Modelled from the spec: one TCP connection owned by the manager: its
stable nonzero id, lifecycle state, direction (inbound = passively accepted)
and the pending outbound bytes buffered for short-write handling. -/
structure UA_TCPConnection where
  id : Nat
  connState : ConnectionState
  inbound : Bool
  pending : List Nat
deriving DecidableEq

/-- Modelled from the spec: the state of the POSIX TCP connection manager
(`UA_ConnectionManager_new_POSIX_TCP`).  `nextId` is the source of fresh
connection ids, `retired` the ids already retired, `everEstablished` and
`inboundIds` are ghost histories of the connections that reached Established
resp. were passively accepted, `listening` tells whether the listener accepts
new connections. -/
structure UA_ConnectionManager where
  nextId : Nat
  conns : List UA_TCPConnection
  retired : List Nat
  everEstablished : List Nat
  inboundIds : List Nat
  listening : Bool
deriving DecidableEq

/-- The freshly constructed TCP connection manager: no connections, ids start
at 1 (connection ids are nonzero), listener armed. -/
def initialCM : UA_ConnectionManager :=
  { nextId := 1, conns := [], retired := [], everEstablished := [],
    inboundIds := [], listening := true }

/-- One invocation of `connectionCallback` as observed by the application:
the connection id, the status, the optional `remote-hostname` string
parameter and the length of the delivered message. -/
structure CallbackRecord where
  connId : Nat
  status : UA_StatusCode
  remoteHostname : Option String
  msgLen : Nat
deriving DecidableEq

/-- The sub-trace of callback records delivered for one connection id. -/
def connRecords (tr : List CallbackRecord) (id : Nat) : List CallbackRecord :=
  tr.filter (fun r => r.connId = id)

/-- Look up a connection by id inside the manager. -/
def findConn (cm : UA_ConnectionManager) (id : Nat) : Option UA_TCPConnection :=
  cm.conns.find? (fun c => c.id = id)

/-- Replace the connection with the given id using `f` (which keeps the id). -/
def updateConn (cm : UA_ConnectionManager) (id : Nat)
    (f : UA_TCPConnection → UA_TCPConnection) : UA_ConnectionManager :=
  { cm with conns := cm.conns.map (fun c => if c.id = id then f c else c) }

/-- Modelled from the spec: `closeConnection` of the connection manager.
Initiates a graceful shutdown of an open (Connecting or Established)
connection and returns Good; returns `BadConnectionClosed` without any side
effect if the connection is already closing or already closed (id unknown). -/
def closeConnection (cm : UA_ConnectionManager) (id : Nat) :
    UA_StatusCode × UA_ConnectionManager :=
  match findConn cm id with
  | some c =>
      if c.connState = .closing then (.badConnectionClosed, cm)
      else (.good, updateConn cm id (fun c => { c with connState := .closing }))
  | none => (.badConnectionClosed, cm)

/-- Who is responsible for a network buffer after an API call returns. -/
inductive BufferFate where
  | releasedByManager
  | retainedByCaller
deriving DecidableEq

/-- Modelled from the spec: `allocNetworkBuffer`: a send buffer for an
existing connection, owned by the caller until passed to `sendWithConnection`
or returned via `freeNetworkBuffer`. -/
def allocNetworkBuffer (cm : UA_ConnectionManager) (id : Nat) (bufSize : Nat) :
    UA_StatusCode × Option (List Nat) :=
  match findConn cm id with
  | some _ => (.good, some (List.replicate bufSize 0))
  | none => (.badConnectionClosed, none)

/-- Modelled from the spec: `sendWithConnection`.  On an Established
connection the bytes are queued on the connection (short writes stay buffered
in FIFO order) and the call reports Good; otherwise the call fails.  In every
branch the network buffer is released internally by the manager — ownership
transfers on the call, regardless of the returned status. -/
def sendWithConnection (cm : UA_ConnectionManager) (id : Nat)
    (buf : List Nat) : UA_StatusCode × UA_ConnectionManager × BufferFate :=
  match findConn cm id with
  | some c =>
      if c.connState = .established then
        (.good,
         updateConn cm id (fun c => { c with pending := c.pending ++ buf }),
         .releasedByManager)
      else (.badConnectionClosed, cm, .releasedByManager)
  | none => (.badConnectionClosed, cm, .releasedByManager)

/-- The events that drive the connection manager: a listener accept, an
active `openConnection`, completion of an outbound connect, bytes received,
an API `closeConnection`, a remote close, the cycle that finishes tearing a
closing connection down, and the `stop` of the event source. -/
inductive CMEvent where
  | accept (host : String)
  | openConn
  | connectSuccess (id : Nat)
  | recv (id : Nat) (msg : List Nat)
  | apiClose (id : Nat)
  | remoteClose (id : Nat)
  | finishClose (id : Nat)
  | stopAll
deriving DecidableEq

/-- Modelled from the spec: one step of the TCP connection manager.  Returns
the successor state and the `connectionCallback` invocations the step emits:
an accept announces the new id with the `remote-hostname` parameter; a
completed outbound connect announces the id with empty parameters; received
bytes are delivered with a non-empty message; a close is initiated without a
callback and, once torn down, produces the single terminal callback
(`BadConnectionClosed`, empty message) right before the id is retired. -/
def cmStep (cm : UA_ConnectionManager) : CMEvent →
    UA_ConnectionManager × List CallbackRecord
  | .accept host =>
      if cm.listening then
        ({ cm with
            nextId := cm.nextId + 1
            conns := ⟨cm.nextId, .established, true, []⟩ :: cm.conns
            everEstablished := cm.nextId :: cm.everEstablished
            inboundIds := cm.nextId :: cm.inboundIds },
         [⟨cm.nextId, .good, some host, 0⟩])
      else (cm, [])
  | .openConn =>
      ({ cm with
          nextId := cm.nextId + 1
          conns := ⟨cm.nextId, .connecting, false, []⟩ :: cm.conns },
       [])
  | .connectSuccess id =>
      match findConn cm id with
      | some c =>
          if c.connState = .connecting then
            ({ updateConn cm id (fun c => { c with connState := .established }) with
                everEstablished := id :: cm.everEstablished },
             [⟨id, .good, none, 0⟩])
          else (cm, [])
      | none => (cm, [])
  | .recv id msg =>
      match findConn cm id with
      | some c =>
          if c.connState = .established ∧ msg ≠ [] then
            (cm, [⟨id, .good, none, msg.length⟩])
          else (cm, [])
      | none => (cm, [])
  | .apiClose id => ((closeConnection cm id).2, [])
  | .remoteClose id =>
      match findConn cm id with
      | some c =>
          if c.connState = .closing then (cm, [])
          else (updateConn cm id (fun c => { c with connState := .closing }), [])
      | none => (cm, [])
  | .finishClose id =>
      match findConn cm id with
      | some c =>
          if c.connState = .closing then
            ({ cm with
                conns := cm.conns.filter (fun c => c.id ≠ id)
                retired := id :: cm.retired },
             [⟨id, .badConnectionClosed, none, 0⟩])
          else (cm, [])
      | none => (cm, [])
  | .stopAll =>
      ({ cm with
          listening := false
          conns := cm.conns.map (fun c => { c with connState := .closing }) },
       [])

/-- Process a list of events, concatenating the emitted callback records. -/
def cmRun : UA_ConnectionManager → List CMEvent →
    UA_ConnectionManager × List CallbackRecord
  | cm, [] => (cm, [])
  | cm, e :: es =>
      let s := cmStep cm e
      let r := cmRun s.1 es
      (r.1, s.2 ++ r.2)

/-- C4: the first `closeConnection` on an open (Connecting or Established)
connection returns Good and moves the connection to Closing; calling it again
while the connection is closing, or after it has closed (id retired and hence
unknown), returns `BadConnectionClosed` with no side effect on the manager
state and emits no callback. -/
theorem closeConnection_idempotent_error (cm : UA_ConnectionManager) (id : Nat) :
    (∀ c, findConn cm id = some c → c.connState ≠ .closing →
      (closeConnection cm id).1 = .good ∧
      (closeConnection cm id).2 =
        updateConn cm id (fun c => { c with connState := .closing })) ∧
    (∀ c, findConn cm id = some c → c.connState = .closing →
      closeConnection cm id = (.badConnectionClosed, cm)) ∧
    (findConn cm id = none → closeConnection cm id = (.badConnectionClosed, cm)) ∧
    (cmStep cm (.apiClose id)).2 = [] := by
  refine ⟨?_, ?_, ?_, ?_⟩
  · intro c hc hnc
    simp [closeConnection, hc, hnc]
  · intro c hc hcl
    simp [closeConnection, hc, hcl]
  · intro hn
    simp [closeConnection, hn]
  · simp [cmStep]

/-- Witness for C4 on a one-connection manager: the first close succeeds, the
second close returns `BadConnectionClosed` and leaves the state unchanged. -/
theorem closeConnection_idempotent_error_witness :
    (findConn ⟨2, [⟨1, .established, false, []⟩], [], [1], [], true⟩ 1 =
        some ⟨1, .established, false, []⟩ ∧
      ConnectionState.established ≠ ConnectionState.closing ∧
      (closeConnection ⟨2, [⟨1, .established, false, []⟩], [], [1], [], true⟩ 1).1 =
        .good) ∧
    (findConn ⟨2, [⟨1, .closing, false, []⟩], [], [1], [], true⟩ 1 =
        some ⟨1, .closing, false, []⟩ ∧
      closeConnection ⟨2, [⟨1, .closing, false, []⟩], [], [1], [], true⟩ 1 =
        (.badConnectionClosed, ⟨2, [⟨1, .closing, false, []⟩], [], [1], [], true⟩)) :=
  ⟨⟨by decide, by decide,
    ((closeConnection_idempotent_error
        ⟨2, [⟨1, .established, false, []⟩], [], [1], [], true⟩ 1).1
      ⟨1, .established, false, []⟩ (by decide) (by decide)).1⟩,
   ⟨by decide,
    (closeConnection_idempotent_error
        ⟨2, [⟨1, .closing, false, []⟩], [], [1], [], true⟩ 1).2.1
      ⟨1, .closing, false, []⟩ (by decide) (by decide)⟩⟩

/-- C6: for every buffer passed to `sendWithConnection`, ownership transfers
to the connection manager on the call regardless of the returned status —
whether the send succeeds (bytes queued on the connection) or fails, the
buffer is released internally by the manager, never left with the caller. -/
theorem sendWithConnection_releases_buffer (cm : UA_ConnectionManager)
    (id : Nat) (buf : List Nat) :
    (sendWithConnection cm id buf).2.2 = .releasedByManager := by
  unfold sendWithConnection
  match findConn cm id with
  | some c =>
      by_cases h : c.connState = .established
      · simp [h]
      · simp [h]
  | none => rfl

lemma connRecords_append (tr₁ tr₂ : List CallbackRecord) (i : Nat) :
    connRecords (tr₁ ++ tr₂) i = connRecords tr₁ i ++ connRecords tr₂ i :=
  List.filter_append _ _

lemma connRecords_single_eq (r : CallbackRecord) (i : Nat) (h : r.connId = i) :
    connRecords [r] i = [r] := by
  simp [connRecords, h]

lemma connRecords_single_ne (r : CallbackRecord) (i : Nat) (h : r.connId ≠ i) :
    connRecords [r] i = [] := by
  simp [connRecords, h]

lemma findConn_eq_some (cm : UA_ConnectionManager) (id : Nat)
    (c : UA_TCPConnection) (h : findConn cm id = some c) :
    c ∈ cm.conns ∧ c.id = id := by
  unfold findConn at h
  refine ⟨List.mem_of_find?_eq_some h, ?_⟩
  have := List.find?_some h
  simpa using this

/-- The safety invariant tying a connection-manager state to the callback
trace emitted so far: live connections have only Good records, a retired id
has exactly one terminal record (`BadConnectionClosed`, empty message) and it
is the last record for that id, ids not yet issued have no records, a
passively accepted id's first record (and only its first) carries the
`remote-hostname` parameter. -/
structure CMInv (cm : UA_ConnectionManager) (tr : List CallbackRecord) : Prop where
  connIdLt : ∀ c ∈ cm.conns, c.id < cm.nextId
  retiredLt : ∀ i ∈ cm.retired, i < cm.nextId
  inboundLt : ∀ i ∈ cm.inboundIds, i < cm.nextId
  liveNotRetired : ∀ c ∈ cm.conns, c.id ∉ cm.retired
  liveGood : ∀ c ∈ cm.conns, ∀ r ∈ connRecords tr c.id, r.status = .good
  retiredTerm : ∀ i ∈ cm.retired, ∃ pre,
    connRecords tr i = pre ++ [⟨i, .badConnectionClosed, none, 0⟩] ∧
    ∀ r ∈ pre, r.status = .good
  freshEmpty : ∀ i, cm.nextId ≤ i → connRecords tr i = []
  inboundHead : ∀ i ∈ cm.inboundIds, ∃ host rest,
    connRecords tr i = ⟨i, .good, some host, 0⟩ :: rest ∧
    ∀ r ∈ rest, r.remoteHostname = none
  outboundNone : ∀ i, i ∉ cm.inboundIds → ∀ r ∈ connRecords tr i,
    r.remoteHostname = none

lemma CMInv.mapConns {cm : UA_ConnectionManager} {tr : List CallbackRecord}
    (h : CMInv cm tr) (g : UA_TCPConnection → UA_TCPConnection)
    (hg : ∀ c, (g c).id = c.id) :
    CMInv { cm with conns := cm.conns.map g } tr := by
  constructor
  · intro c hc
    rcases List.mem_map.mp hc with ⟨c0, hc0, rfl⟩
    rw [hg]
    exact h.connIdLt c0 hc0
  · exact h.retiredLt
  · exact h.inboundLt
  · intro c hc
    rcases List.mem_map.mp hc with ⟨c0, hc0, rfl⟩
    rw [hg]
    exact h.liveNotRetired c0 hc0
  · intro c hc
    rcases List.mem_map.mp hc with ⟨c0, hc0, rfl⟩
    rw [hg]
    exact h.liveGood c0 hc0
  · exact h.retiredTerm
  · exact h.freshEmpty
  · exact h.inboundHead
  · exact h.outboundNone

lemma CMInv.updateConnInv {cm : UA_ConnectionManager} {tr : List CallbackRecord}
    (h : CMInv cm tr) (id : Nat) (f : UA_TCPConnection → UA_TCPConnection)
    (hf : ∀ c, (f c).id = c.id) :
    CMInv (updateConn cm id f) tr :=
  h.mapConns (fun c => if c.id = id then f c else c)
    (fun c => by by_cases hc : c.id = id <;> simp [hc, hf])

lemma CMInv.setListening {cm : UA_ConnectionManager} {tr : List CallbackRecord}
    (h : CMInv cm tr) (b : Bool) :
    CMInv { cm with listening := b } tr :=
  ⟨h.connIdLt, h.retiredLt, h.inboundLt, h.liveNotRetired, h.liveGood,
   h.retiredTerm, h.freshEmpty, h.inboundHead, h.outboundNone⟩

lemma CMInv.emitGood {cm : UA_ConnectionManager} {tr : List CallbackRecord}
    (h : CMInv cm tr) (id : Nat) (hlive : ∃ c ∈ cm.conns, c.id = id) (s : Nat) :
    CMInv cm (tr ++ [⟨id, .good, none, s⟩]) := by
  obtain ⟨c0, hc0, hcid⟩ := hlive
  have hidlt : id < cm.nextId := hcid ▸ h.connIdLt c0 hc0
  have hidnr : id ∉ cm.retired := hcid ▸ h.liveNotRetired c0 hc0
  constructor
  · exact h.connIdLt
  · exact h.retiredLt
  · exact h.inboundLt
  · exact h.liveNotRetired
  · intro c hc r hr
    rw [connRecords_append] at hr
    rcases List.mem_append.mp hr with hr | hr
    · exact h.liveGood c hc r hr
    · by_cases hcc : c.id = id
      · rw [connRecords_single_eq ⟨id, .good, none, s⟩ c.id hcc.symm] at hr
        simp at hr
        subst hr
        rfl
      · rw [connRecords_single_ne ⟨id, .good, none, s⟩ c.id
            (fun he => hcc he.symm)] at hr
        cases hr
  · intro i hi
    have hid_ne : id ≠ i := by
      intro he
      exact hidnr (by rw [he]; exact hi)
    rw [connRecords_append, connRecords_single_ne ⟨id, .good, none, s⟩ i hid_ne,
        List.append_nil]
    exact h.retiredTerm i hi
  · intro i hij
    have hid_ne : id ≠ i := by omega
    rw [connRecords_append, connRecords_single_ne ⟨id, .good, none, s⟩ i hid_ne,
        List.append_nil]
    exact h.freshEmpty i hij
  · intro i hi
    obtain ⟨host, rest, heq, hrest⟩ := h.inboundHead i hi
    by_cases hii : i = id
    · refine ⟨host, rest ++ [⟨id, .good, none, s⟩], ?_, ?_⟩
      · rw [connRecords_append, heq,
            connRecords_single_eq ⟨id, .good, none, s⟩ i hii.symm]
        simp
      · intro r hr
        rcases List.mem_append.mp hr with hr | hr
        · exact hrest r hr
        · simp at hr
          subst hr
          rfl
    · refine ⟨host, rest, ?_, hrest⟩
      rw [connRecords_append,
          connRecords_single_ne ⟨id, .good, none, s⟩ i (fun he => hii he.symm),
          List.append_nil]
      exact heq
  · intro i hni r hr
    rw [connRecords_append] at hr
    rcases List.mem_append.mp hr with hr | hr
    · exact h.outboundNone i hni r hr
    · by_cases hii : id = i
      · rw [connRecords_single_eq ⟨id, .good, none, s⟩ i hii] at hr
        simp at hr
        subst hr
        rfl
      · rw [connRecords_single_ne ⟨id, .good, none, s⟩ i hii] at hr
        cases hr

theorem cmStep_inv (cm : UA_ConnectionManager) (tr : List CallbackRecord)
    (e : CMEvent) (h : CMInv cm tr) :
    CMInv (cmStep cm e).1 (tr ++ (cmStep cm e).2) := by
  cases e with
  | accept host =>
      by_cases hl : cm.listening = true
      · simp only [cmStep]
        rw [if_pos hl]
        refine ⟨?_, ?_, ?_, ?_, ?_, ?_, ?_, ?_, ?_⟩
        · intro c hc
          rcases List.mem_cons.mp hc with hceq | hc
          · rw [hceq]
            exact Nat.lt_succ_self _
          · exact Nat.lt_succ_of_lt (h.connIdLt c hc)
        · intro i hi
          exact Nat.lt_succ_of_lt (h.retiredLt i hi)
        · intro i hi
          rcases List.mem_cons.mp hi with hieq | hi
          · rw [hieq]
            exact Nat.lt_succ_self _
          · exact Nat.lt_succ_of_lt (h.inboundLt i hi)
        · intro c hc
          rcases List.mem_cons.mp hc with hceq | hc
          · have hcid : c.id = cm.nextId := by rw [hceq]
            rw [hcid]
            intro hmem
            have := h.retiredLt _ hmem
            omega
          · exact h.liveNotRetired c hc
        · intro c hc r hr
          rw [connRecords_append] at hr
          rcases List.mem_append.mp hr with hr | hr
          · rcases List.mem_cons.mp hc with hceq | hc
            · have hcid : c.id = cm.nextId := by rw [hceq]
              rw [hcid, h.freshEmpty cm.nextId (le_refl _)] at hr
              cases hr
            · exact h.liveGood c hc r hr
          · by_cases hcc : c.id = cm.nextId
            · rw [connRecords_single_eq ⟨cm.nextId, .good, some host, 0⟩ c.id
                  hcc.symm] at hr
              simp at hr
              subst hr
              rfl
            · rw [connRecords_single_ne ⟨cm.nextId, .good, some host, 0⟩ c.id
                  (fun he => hcc he.symm)] at hr
              cases hr
        · intro i hi
          have hne : cm.nextId ≠ i := by
            have := h.retiredLt i hi
            omega
          rw [connRecords_append,
              connRecords_single_ne ⟨cm.nextId, .good, some host, 0⟩ i hne,
              List.append_nil]
          exact h.retiredTerm i hi
        · intro i hij
          have hij' : cm.nextId + 1 ≤ i := hij
          have hne : cm.nextId ≠ i := by omega
          rw [connRecords_append,
              connRecords_single_ne ⟨cm.nextId, .good, some host, 0⟩ i hne,
              List.append_nil]
          exact h.freshEmpty i (by omega)
        · intro i hi
          rcases List.mem_cons.mp hi with hieq | hi
          · refine ⟨host, [], ?_, ?_⟩
            · rw [hieq, connRecords_append, h.freshEmpty cm.nextId (le_refl _),
                  connRecords_single_eq ⟨cm.nextId, .good, some host, 0⟩
                    cm.nextId rfl]
              rfl
            · intro r hr
              cases hr
          · obtain ⟨host', rest, heq, hrest⟩ := h.inboundHead i hi
            have hne : cm.nextId ≠ i := by
              have := h.inboundLt i hi
              omega
            refine ⟨host', rest, ?_, hrest⟩
            rw [connRecords_append,
                connRecords_single_ne ⟨cm.nextId, .good, some host, 0⟩ i hne,
                List.append_nil]
            exact heq
        · intro i hni r hr
          have hni' : i ∉ cm.inboundIds :=
            fun hmem => hni (List.mem_cons_of_mem _ hmem)
          have hne : cm.nextId ≠ i := by
            intro he
            exact hni (by rw [← he]; exact List.mem_cons_self _ _)
          rw [connRecords_append] at hr
          rcases List.mem_append.mp hr with hr | hr
          · exact h.outboundNone i hni' r hr
          · rw [connRecords_single_ne ⟨cm.nextId, .good, some host, 0⟩ i hne] at hr
            cases hr
      · simp only [cmStep]
        rw [if_neg hl]
        simpa using h
  | openConn =>
      simp only [cmStep]
      refine ⟨?_, ?_, ?_, ?_, ?_, ?_, ?_, ?_, ?_⟩
      · intro c hc
        rcases List.mem_cons.mp hc with hceq | hc
        · have hcid : c.id = cm.nextId := by rw [hceq]
          rw [hcid]
          exact Nat.lt_succ_self _
        · exact Nat.lt_succ_of_lt (h.connIdLt c hc)
      · intro i hi
        exact Nat.lt_succ_of_lt (h.retiredLt i hi)
      · intro i hi
        exact Nat.lt_succ_of_lt (h.inboundLt i hi)
      · intro c hc
        rcases List.mem_cons.mp hc with hceq | hc
        · have hcid : c.id = cm.nextId := by rw [hceq]
          rw [hcid]
          intro hmem
          have := h.retiredLt _ hmem
          omega
        · exact h.liveNotRetired c hc
      · intro c hc r hr
        rw [List.append_nil] at hr
        rcases List.mem_cons.mp hc with hceq | hc
        · have hcid : c.id = cm.nextId := by rw [hceq]
          rw [hcid, h.freshEmpty cm.nextId (le_refl _)] at hr
          cases hr
        · exact h.liveGood c hc r hr
      · intro i hi
        rw [List.append_nil]
        exact h.retiredTerm i hi
      · intro i hij
        have hij' : cm.nextId + 1 ≤ i := hij
        rw [List.append_nil]
        exact h.freshEmpty i (by omega)
      · intro i hi
        rw [List.append_nil]
        exact h.inboundHead i hi
      · intro i hni r hr
        rw [List.append_nil] at hr
        exact h.outboundNone i hni r hr
  | connectSuccess id =>
      cases hm : findConn cm id with
      | none =>
          simp only [cmStep, hm]
          simpa using h
      | some c =>
          by_cases hcs : c.connState = .connecting
          · simp only [cmStep, hm]
            rw [if_pos hcs]
            obtain ⟨hcm, hcid⟩ := findConn_eq_some cm id c hm
            have h1 : CMInv (updateConn cm id
                (fun c => { c with connState := .established })) tr :=
              h.updateConnInv id _ (fun c => rfl)
            have h2 : CMInv { updateConn cm id
                (fun c => { c with connState := .established }) with
                  everEstablished := id :: cm.everEstablished } tr :=
              ⟨h1.connIdLt, h1.retiredLt, h1.inboundLt, h1.liveNotRetired,
               h1.liveGood, h1.retiredTerm, h1.freshEmpty, h1.inboundHead,
               h1.outboundNone⟩
            have hlive : ∃ c' ∈ (updateConn cm id
                (fun c => { c with connState := .established })).conns,
                c'.id = id := by
              refine ⟨{ c with connState := .established }, ?_, ?_⟩
              · apply List.mem_map.mpr
                refine ⟨c, hcm, ?_⟩
                rw [if_pos hcid]
              · rw [show ({ c with connState := ConnectionState.established } :
                    UA_TCPConnection).id = c.id from rfl, hcid]
            exact h2.emitGood id hlive 0
          · simp only [cmStep, hm]
            rw [if_neg hcs]
            simpa using h
  | recv id msg =>
      cases hm : findConn cm id with
      | none =>
          simp only [cmStep, hm]
          simpa using h
      | some c =>
          by_cases hcs : c.connState = .established ∧ msg ≠ []
          · simp only [cmStep, hm]
            rw [if_pos hcs]
            obtain ⟨hcm, hcid⟩ := findConn_eq_some cm id c hm
            exact h.emitGood id ⟨c, hcm, hcid⟩ msg.length
          · simp only [cmStep, hm]
            rw [if_neg hcs]
            simpa using h
  | apiClose id =>
      cases hm : findConn cm id with
      | none =>
          simp only [cmStep, closeConnection, hm]
          simpa using h
      | some c =>
          by_cases hcs : c.connState = .closing
          · simp only [cmStep, closeConnection, hm]
            rw [if_pos hcs]
            simpa using h
          · simp only [cmStep, closeConnection, hm]
            rw [if_neg hcs]
            simpa using h.updateConnInv id
              (fun c => { c with connState := .closing }) (fun c => rfl)
  | remoteClose id =>
      cases hm : findConn cm id with
      | none =>
          simp only [cmStep, hm]
          simpa using h
      | some c =>
          by_cases hcs : c.connState = .closing
          · simp only [cmStep, hm]
            rw [if_pos hcs]
            simpa using h
          · simp only [cmStep, hm]
            rw [if_neg hcs]
            simpa using h.updateConnInv id
              (fun c => { c with connState := .closing }) (fun c => rfl)
  | finishClose id =>
      cases hm : findConn cm id with
      | none =>
          simp only [cmStep, hm]
          simpa using h
      | some c =>
          by_cases hcs : c.connState = .closing
          · simp only [cmStep, hm]
            rw [if_pos hcs]
            obtain ⟨hcm, hcid⟩ := findConn_eq_some cm id c hm
            have hidlt : id < cm.nextId := hcid ▸ h.connIdLt c hcm
            have hidnr : id ∉ cm.retired := hcid ▸ h.liveNotRetired c hcm
            refine ⟨?_, ?_, ?_, ?_, ?_, ?_, ?_, ?_, ?_⟩
            · intro c' hc'
              exact h.connIdLt c' (List.mem_of_mem_filter hc')
            · intro i hi
              rcases List.mem_cons.mp hi with hieq | hi
              · rw [hieq]
                exact hidlt
              · exact h.retiredLt i hi
            · exact h.inboundLt
            · intro c' hc'
              have hc'm := List.mem_of_mem_filter hc'
              have hc'ne : c'.id ≠ id := by
                have := List.mem_filter.mp hc'
                simpa using this.2
              intro hmem
              rcases List.mem_cons.mp hmem with hieq | hmem
              · exact hc'ne hieq
              · exact h.liveNotRetired c' hc'm hmem
            · intro c' hc' r hr
              have hc'm := List.mem_of_mem_filter hc'
              have hc'ne : c'.id ≠ id := by
                have := List.mem_filter.mp hc'
                simpa using this.2
              rw [connRecords_append,
                  connRecords_single_ne ⟨id, .badConnectionClosed, none, 0⟩
                    c'.id (fun he => hc'ne he.symm),
                  List.append_nil] at hr
              exact h.liveGood c' hc'm r hr
            · intro i hi
              rcases List.mem_cons.mp hi with hieq | hi
              · refine ⟨connRecords tr i, ?_, ?_⟩
                · rw [hieq, connRecords_append,
                      connRecords_single_eq ⟨id, .badConnectionClosed, none, 0⟩
                        id rfl]
                · intro r hr
                  rw [hieq] at hr
                  have hall := h.liveGood c hcm
                  rw [hcid] at hall
                  exact hall r hr
              · have hne : id ≠ i := fun he => hidnr (by rw [he]; exact hi)
                rw [connRecords_append,
                    connRecords_single_ne ⟨id, .badConnectionClosed, none, 0⟩
                      i hne,
                    List.append_nil]
                exact h.retiredTerm i hi
            · intro i hij
              have hij' : cm.nextId ≤ i := hij
              have hne : id ≠ i := by omega
              rw [connRecords_append,
                  connRecords_single_ne ⟨id, .badConnectionClosed, none, 0⟩
                    i hne,
                  List.append_nil]
              exact h.freshEmpty i hij'
            · intro i hi
              obtain ⟨host, rest, heq, hrest⟩ := h.inboundHead i hi
              by_cases hii : i = id
              · refine ⟨host, rest ++ [⟨id, .badConnectionClosed, none, 0⟩],
                  ?_, ?_⟩
                · rw [connRecords_append, heq,
                      connRecords_single_eq ⟨id, .badConnectionClosed, none, 0⟩
                        i hii.symm]
                  simp
                · intro r hr
                  rcases List.mem_append.mp hr with hr | hr
                  · exact hrest r hr
                  · simp at hr
                    subst hr
                    rfl
              · refine ⟨host, rest, ?_, hrest⟩
                rw [connRecords_append,
                    connRecords_single_ne ⟨id, .badConnectionClosed, none, 0⟩
                      i (fun he => hii he.symm),
                    List.append_nil]
                exact heq
            · intro i hni r hr
              rw [connRecords_append] at hr
              rcases List.mem_append.mp hr with hr | hr
              · exact h.outboundNone i hni r hr
              · by_cases hii : id = i
                · rw [connRecords_single_eq ⟨id, .badConnectionClosed, none, 0⟩
                      i hii] at hr
                  simp at hr
                  subst hr
                  rfl
                · rw [connRecords_single_ne ⟨id, .badConnectionClosed, none, 0⟩
                      i hii] at hr
                  cases hr
          · simp only [cmStep, hm]
            rw [if_neg hcs]
            simpa using h
  | stopAll =>
      simp only [cmStep, List.append_nil]
      exact (h.mapConns (fun c => { c with connState := .closing })
        (fun c => rfl)).setListening false

lemma cmInv_initial : CMInv initialCM [] := by
  constructor <;> simp [initialCM, connRecords]

theorem cmRun_inv (evs : List CMEvent) :
    ∀ (cm : UA_ConnectionManager) (tr : List CallbackRecord), CMInv cm tr →
      CMInv (cmRun cm evs).1 (tr ++ (cmRun cm evs).2) := by
  induction evs with
  | nil =>
      intro cm tr h
      simpa [cmRun] using h
  | cons e es ih =>
      intro cm tr h
      simp only [cmRun]
      have h2 := ih (cmStep cm e).1 (tr ++ (cmStep cm e).2) (cmStep_inv cm tr e h)
      rw [List.append_assoc] at h2
      exact h2

/-- C2: in every run of the connection manager from its initial state, every
connection that became Established and whose id has been retired received
exactly one terminal `connectionCallback` — status `BadConnectionClosed`, no
parameters, empty message — as the last callback for its id: all earlier
callbacks for the id carry status Good and none follows the terminal one.
This covers connections closed actively via `closeConnection` as well as
those closed remotely or by `stop`, since the event list is arbitrary. -/
theorem connection_terminal_callback_once (evs : List CMEvent) (i : Nat)
    (_hEst : i ∈ (cmRun initialCM evs).1.everEstablished)
    (hRet : i ∈ (cmRun initialCM evs).1.retired) :
    ∃ pre, connRecords (cmRun initialCM evs).2 i =
        pre ++ [⟨i, .badConnectionClosed, none, 0⟩] ∧
      ∀ r ∈ pre, r.status = .good := by
  have h := cmRun_inv evs initialCM [] cmInv_initial
  rw [List.nil_append] at h
  exact h.retiredTerm i hRet

/-- Witness for C2: an accepted connection that is closed and torn down gets
exactly the trace first-callback-then-terminal. -/
theorem connection_terminal_callback_once_witness :
    1 ∈ (cmRun initialCM [.accept "peer", .apiClose 1, .finishClose 1]).1.everEstablished ∧
    1 ∈ (cmRun initialCM [.accept "peer", .apiClose 1, .finishClose 1]).1.retired ∧
    ∃ pre, connRecords (cmRun initialCM [.accept "peer", .apiClose 1, .finishClose 1]).2 1 =
        pre ++ [⟨1, .badConnectionClosed, none, 0⟩] ∧
      ∀ r ∈ pre, r.status = .good :=
  ⟨by decide, by decide,
   connection_terminal_callback_once [.accept "peer", .apiClose 1, .finishClose 1] 1
     (by decide) (by decide)⟩

/-- C9: in every run of the connection manager from its initial state, every
passively accepted connection's first `connectionCallback` carries the
`remote-hostname` parameter with a string value, and no later callback for
that connection carries it. -/
theorem inbound_first_callback_remote_hostname (evs : List CMEvent) (i : Nat)
    (hIn : i ∈ (cmRun initialCM evs).1.inboundIds) :
    ∃ host rest, connRecords (cmRun initialCM evs).2 i =
        ⟨i, .good, some host, 0⟩ :: rest ∧
      ∀ r ∈ rest, r.remoteHostname = none := by
  have h := cmRun_inv evs initialCM [] cmInv_initial
  rw [List.nil_append] at h
  exact h.inboundHead i hIn

/-- Witness for C9: an accepted connection that then receives data has the
hostname parameter on the first callback only. -/
theorem inbound_first_callback_remote_hostname_witness :
    1 ∈ (cmRun initialCM [.accept "peer", .recv 1 [42]]).1.inboundIds ∧
    ∃ host rest, connRecords (cmRun initialCM [.accept "peer", .recv 1 [42]]).2 1 =
        ⟨1, .good, some host, 0⟩ :: rest ∧
      ∀ r ∈ rest, r.remoteHostname = none :=
  ⟨by decide,
   inbound_first_callback_remote_hostname [.accept "peer", .recv 1 [42]] 1 (by decide)⟩

/-- EventLoop lifecycle states, as in `UA_EventLoopState`. -/
inductive UA_EventLoopState where
  | fresh
  | started
  | stopping
  | stopped
deriving DecidableEq

/-- EventSource lifecycle states, as in `UA_EventSourceState`. -/
inductive UA_EventSourceState where
  | fresh
  | stopped
  | starting
  | started
  | stopping
deriving DecidableEq

/-- Modelled from the spec: a registered event source, reduced to its unique
name and lifecycle state. -/
structure UA_EventSource where
  name : String
  state : UA_EventSourceState
deriving DecidableEq

/-- Modelled from the spec: the state of a POSIX event loop
(`UA_EventLoop_new_POSIX`): lifecycle state, the reentrancy flag (true while
inside `run`), the timer wheel, the delayed-callback FIFO, the registered
sources, the TCP connection manager and the monotonic clock. -/
structure UA_EventLoop where
  state : UA_EventLoopState
  executing : Bool
  timer : UA_Timer
  delayed : List Nat
  sources : List UA_EventSource
  cm : UA_ConnectionManager
  now : UA_DateTime
deriving DecidableEq

/-- Modelled from the spec: the wait passed to the poll primitive by one
`run(timeout)` cycle: the deadline is the minimum of `now + timeout`, the
next cyclic callback time, and `now` itself when delayed work is queued; the
poll wait is the remaining time to that deadline, clamped at zero. -/
def pollWaitMs (el : UA_EventLoop) (timeout : ℚ) : ℚ :=
  max 0 (min (el.now + timeout)
    (min (nextCyclicTime el.timer)
      (if el.delayed.isEmpty then el.now + timeout else el.now)) - el.now)

/-- The deep-embedded actions a connection callback may perform against the
loop; `nestedRun` is the reentrant `run(el, timeout)` call of the
`illegalConnectionCallback` test. -/
inductive CbAction where
  | nestedRun (timeout : ℚ)
  | noop
deriving DecidableEq

/-- Run a callback program; the interpretation of `nestedRun` is supplied by
the caller (it is the `run` entry point itself). -/
def execProg (nested : UA_EventLoop → ℚ → UA_StatusCode × UA_EventLoop) :
    List CbAction → UA_EventLoop → UA_EventLoop
  | [], el => el
  | .noop :: rest, el => execProg nested rest el
  | .nestedRun t :: rest, el => execProg nested rest (nested el t).2

/-- Modelled from the spec: readiness dispatch of one cycle.  Each polled
event is handed to the connection manager; every emitted
`connectionCallback` invocation runs the application's callback program
(which may attempt a nested `run`). -/
def dispatchEvents (nested : UA_EventLoop → ℚ → UA_StatusCode × UA_EventLoop)
    (prog : List CbAction) :
    UA_EventLoop → List CMEvent → UA_EventLoop × List CallbackRecord
  | el, [] => (el, [])
  | el, ev :: rest =>
      let s := cmStep el.cm ev
      let el1 : UA_EventLoop := { el with cm := s.1 }
      let el2 := s.2.foldl (fun acc _ => execProg nested prog acc) el1
      let r := dispatchEvents nested prog el2 rest
      (r.1, s.2 ++ r.2)

/-- Modelled from the spec: a Stopping loop whose sources are all Stopped and
whose connections are all torn down transitions to Stopped at the end of the
cycle. -/
def checkStopped (el : UA_EventLoop) : UA_EventLoop :=
  if el.state = .stopping ∧ (∀ s ∈ el.sources, s.state = .stopped) ∧
      el.cm.conns = [] then
    { el with state := .stopped }
  else el

/-- Modelled from the spec: `run` of `UA_EventLoop`, one cycle, with explicit
fuel bounding the depth of nested (reentrant) calls.  A reentrant call — the
`executing` flag already set — fails with `BadInternalError` and performs no
work.  Otherwise the cycle polls with the computed wait (`poll w` returns the
events the OS has ready after waiting `w` ms, or `none` on unrecoverable poll
failure, which aborts the cycle with an error), dispatches readiness to the
connection manager while running the callback program on every delivered
callback, fires due timers, drains the delayed queue and completes the
Stopping-to-Stopped transition. -/
def run : Nat → List CbAction → UA_EventLoop → ℚ →
    (ℚ → Option (List CMEvent)) → UA_StatusCode × UA_EventLoop × List CallbackRecord
  | 0, _, el, _, _ => (.badInternalError, el, [])
  | Nat.succ fuel, prog, el, timeout, poll =>
      if el.executing then (.badInternalError, el, [])
      else if ¬(el.state = .started ∨ el.state = .stopping) then
        (.badInternalError, el, [])
      else
        match poll (pollWaitMs el timeout) with
        | none => (.badInternalError, el, [])
        | some evs =>
            let d := dispatchEvents
              (fun s t => ((run fuel prog s t poll).1, (run fuel prog s t poll).2.1))
              prog { el with executing := true } evs
            let el2 : UA_EventLoop :=
              { d.1 with timer := fireTimers d.1.timer d.1.now, delayed := [] }
            (.good, { checkStopped el2 with executing := false }, d.2)

lemma run_executing_eq (fuel : Nat) (prog : List CbAction) (el : UA_EventLoop)
    (timeout : ℚ) (poll : ℚ → Option (List CMEvent)) (h : el.executing = true) :
    run fuel prog el timeout poll = (.badInternalError, el, []) := by
  cases fuel with
  | zero => rfl
  | succ fuel =>
      simp only [run]
      rw [if_pos h]

lemma execProg_executing (nested : UA_EventLoop → ℚ → UA_StatusCode × UA_EventLoop)
    (hn : ∀ s t, s.executing = true → nested s t = (.badInternalError, s)) :
    ∀ (p : List CbAction) (el : UA_EventLoop), el.executing = true →
      execProg nested p el = el := by
  intro p
  induction p with
  | nil =>
      intro el h
      rfl
  | cons a rest ih =>
      intro el h
      cases a with
      | noop => exact ih el h
      | nestedRun t =>
          simp only [execProg]
          rw [hn el t h]
          exact ih el h

lemma foldl_execProg_id (nested : UA_EventLoop → ℚ → UA_StatusCode × UA_EventLoop)
    (hn : ∀ s t, s.executing = true → nested s t = (.badInternalError, s))
    (prog : List CbAction) :
    ∀ (l : List CallbackRecord) (el : UA_EventLoop), el.executing = true →
      l.foldl (fun acc _ => execProg nested prog acc) el = el := by
  intro l
  induction l with
  | nil =>
      intro el h
      rfl
  | cons r rest ih =>
      intro el h
      simp only [List.foldl_cons]
      rw [execProg_executing nested hn prog el h]
      exact ih el h

lemma dispatchEvents_irrelevant
    (n₁ n₂ : UA_EventLoop → ℚ → UA_StatusCode × UA_EventLoop)
    (p₁ p₂ : List CbAction)
    (h₁ : ∀ s t, s.executing = true → n₁ s t = (.badInternalError, s))
    (h₂ : ∀ s t, s.executing = true → n₂ s t = (.badInternalError, s)) :
    ∀ (evs : List CMEvent) (el : UA_EventLoop), el.executing = true →
      dispatchEvents n₁ p₁ el evs = dispatchEvents n₂ p₂ el evs := by
  intro evs
  induction evs with
  | nil =>
      intro el h
      rfl
  | cons ev rest ih =>
      intro el h
      simp only [dispatchEvents]
      have hexec : ({ el with cm := (cmStep el.cm ev).1 } : UA_EventLoop).executing = true := h
      rw [foldl_execProg_id n₁ h₁ p₁ _ _ hexec, foldl_execProg_id n₂ h₂ p₂ _ _ hexec,
          ih _ hexec]

/-- C1: calling `run` from inside any callback dispatched by the loop (the
`executing` flag is set for the whole cycle) returns `BadInternalError` and
has no visible effect: the returned state — timers, registered sources,
connections, everything — is exactly the state before the call, and no
callback is delivered by the nested call.  Moreover the surrounding cycle
completes exactly as it would had the callback not attempted the nested
`run`: a cycle run with the callback program `nestedRun k :: prog` produces
the same status, the same final state and the same callback trace as with
`prog`, so the enclosing connect/send/receive/close scenario still
succeeds. -/
theorem run_reentrant_noop :
    (∀ (fuel : Nat) (prog : List CbAction) (el : UA_EventLoop) (timeout : ℚ)
        (poll : ℚ → Option (List CMEvent)), el.executing = true →
      run fuel prog el timeout poll = (.badInternalError, el, [])) ∧
    (∀ (fuel : Nat) (prog : List CbAction) (el : UA_EventLoop) (timeout : ℚ)
        (poll : ℚ → Option (List CMEvent)) (k : ℚ),
      run fuel (.nestedRun k :: prog) el timeout poll =
        run fuel prog el timeout poll) := by
  constructor
  · exact fun fuel prog el timeout poll h =>
      run_executing_eq fuel prog el timeout poll h
  · intro fuel prog el timeout poll k
    cases fuel with
    | zero => rfl
    | succ fuel =>
        simp only [run]
        by_cases hex : el.executing = true
        · rw [if_pos hex, if_pos hex]
        · rw [if_neg hex, if_neg hex]
          by_cases hst : ¬(el.state = .started ∨ el.state = .stopping)
          · rw [if_pos hst, if_pos hst]
          · rw [if_neg hst, if_neg hst]
            cases hp : poll (pollWaitMs el timeout) with
            | none => rfl
            | some evs =>
                have hd := dispatchEvents_irrelevant
                  (fun s t => ((run fuel (.nestedRun k :: prog) s t poll).1,
                    (run fuel (.nestedRun k :: prog) s t poll).2.1))
                  (fun s t => ((run fuel prog s t poll).1,
                    (run fuel prog s t poll).2.1))
                  (.nestedRun k :: prog) prog
                  (fun s t hs => by
                    simp only [run_executing_eq fuel (CbAction.nestedRun k :: prog) s t poll hs])
                  (fun s t hs => by
                    simp only [run_executing_eq fuel prog s t poll hs])
                  evs { el with executing := true } rfl
                simp only [hd]

/-- A started, idle loop used as concrete input by the witnesses below. -/
def sampleLoop : UA_EventLoop :=
  { state := .started, executing := false, timer := ⟨[], 0, []⟩, delayed := [],
    sources := [], cm := initialCM, now := 0 }

/-- The same loop observed from inside a dispatched callback: the reentrancy
flag is set. -/
def busyLoop : UA_EventLoop := { sampleLoop with executing := true }

/-- Witness for C1: a nested `run` on a loop whose reentrancy flag is set
returns `BadInternalError`, the untouched state and no callbacks. -/
theorem run_reentrant_noop_witness :
    busyLoop.executing = true ∧
    run 1 [] busyLoop 1 (fun _ => some []) = (.badInternalError, busyLoop, []) :=
  ⟨rfl, run_reentrant_noop.1 1 [] busyLoop 1 (fun _ => some []) rfl⟩

/-- C3: for a started event loop (not inside a callback), `run` returns Good
exactly when the poll primitive succeeds: a cycle of normal progress reports
Good, and a non-Good status is returned only when the underlying poll
primitive fails unrecoverably. -/
theorem run_good_unless_poll_fails (fuel : Nat) (prog : List CbAction)
    (el : UA_EventLoop) (timeout : ℚ) (poll : ℚ → Option (List CMEvent))
    (hex : el.executing = false) (hst : el.state = .started) :
    ((run (Nat.succ fuel) prog el timeout poll).1 = .good ↔
      (poll (pollWaitMs el timeout)).isSome = true) := by
  simp only [run]
  rw [if_neg (by simp [hex]), if_neg (by simp [hst])]
  cases hp : poll (pollWaitMs el timeout) with
  | none => simp
  | some evs => simp

/-- Witness for C3 on the sample loop: with a succeeding poll the run reports
Good. -/
theorem run_good_unless_poll_fails_witness :
    sampleLoop.executing = false ∧ sampleLoop.state = .started ∧
    ((run 1 [] sampleLoop 1 (fun _ => some [])).1 = .good ↔
      (((fun (_ : ℚ) => some ([] : List CMEvent)) (pollWaitMs sampleLoop 1)).isSome = true)) :=
  ⟨rfl, rfl, run_good_unless_poll_fails 0 [] sampleLoop 1 (fun _ => some []) rfl rfl⟩

/-- C10: a `run` with timeout 0 never blocks waiting for new events: the wait
handed to the poll primitive is 0 (and for any non-negative timeout the wait
never exceeds the timeout), so the cycle processes exactly the events already
received at the time of the call — running with timeout 0 is the same as
running against the events available after a zero wait — plus due timers and
queued delayed work, and returns immediately. -/
theorem run_zero_timeout_nonblocking (el : UA_EventLoop) :
    pollWaitMs el 0 = 0 ∧
    (∀ timeout : ℚ, 0 ≤ timeout → pollWaitMs el timeout ≤ timeout) ∧
    (∀ (fuel : Nat) (prog : List CbAction) (poll : ℚ → Option (List CMEvent)),
      run (Nat.succ fuel) prog el 0 poll =
        run (Nat.succ fuel) prog el 0 (fun _ => poll 0)) := by
  have h0 : pollWaitMs el 0 = 0 := by
    unfold pollWaitMs
    have h1 := min_le_left (el.now + (0 : ℚ))
      (min (nextCyclicTime el.timer)
        (if el.delayed.isEmpty then el.now + (0 : ℚ) else el.now))
    apply max_eq_left
    linarith
  refine ⟨h0, ?_, ?_⟩
  · intro timeout ht
    unfold pollWaitMs
    have h1 := min_le_left (el.now + timeout)
      (min (nextCyclicTime el.timer)
        (if el.delayed.isEmpty then el.now + timeout else el.now))
    exact max_le ht (by linarith)
  · intro fuel prog poll
    simp only [run]
    by_cases hex : el.executing = true
    · rw [if_pos hex, if_pos hex]
    · rw [if_neg hex, if_neg hex]
      by_cases hst : ¬(el.state = .started ∨ el.state = .stopping)
      · rw [if_pos hst, if_pos hst]
      · rw [if_neg hst, if_neg hst]
        rw [h0]
        cases hp : poll 0 with
        | none => rfl
        | some evs =>
            have hd := dispatchEvents_irrelevant
              (fun s t => ((run fuel prog s t poll).1,
                (run fuel prog s t poll).2.1))
              (fun s t => ((run fuel prog s t (fun _ => some evs)).1,
                (run fuel prog s t (fun _ => some evs)).2.1))
              prog prog
              (fun s t hs => by
                simp only [run_executing_eq fuel prog s t poll hs])
              (fun s t hs => by
                simp only [run_executing_eq fuel prog s t (fun _ => some evs) hs])
              evs { el with executing := true } rfl
            simp only [hd]

/-- Witness for C10 on the sample loop. -/
theorem run_zero_timeout_nonblocking_witness :
    pollWaitMs sampleLoop 0 = 0 ∧
    ((0 : ℚ) ≤ 1 ∧ pollWaitMs sampleLoop 1 ≤ 1) :=
  ⟨(run_zero_timeout_nonblocking sampleLoop).1,
   by norm_num,
   (run_zero_timeout_nonblocking sampleLoop).2.1 1 (by norm_num)⟩
